import Mathlib

/-!
Verification of the physics-modeling core of the HFSS 2-D transmission-line
scripts (`hfss_ms.py`, `hfss_2d_ms.py`, `example_microstrip.py`).

Floating-point arithmetic of the source is modelled over the exact real and
complex numbers; numpy's principal complex square root is modelled by
`csqrt`; Python dictionaries are modelled as association lists in insertion
order; numpy 1-d broadcasting is modelled by `broadcastMul`.
-/

namespace HfssMs

noncomputable section

/-- Vacuum permeability, `self.mu0` in `HFSSMS.__init__` (hfss_ms.py:117). -/
def mu0 : ℝ := 1.25663706212e-6

/-- Vacuum permittivity, `self.ep0` in `HFSSMS.__init__` (hfss_ms.py:118). -/
def ep0 : ℝ := 8.8541878128e-12

/-- Speed of light `self.c0 = 1/np.sqrt(self.mu0*self.ep0)` (hfss_ms.py:119). -/
def c0 : ℝ := 1 / Real.sqrt (mu0 * ep0)

/-- IEEE double-precision machine epsilon, `np.finfo(float).eps = 2 ^ (-52)`. -/
def eps64 : ℝ := 1 / 2 ^ 52

/-- numpy's principal square root of a complex number: the real part is
nonnegative, and the sign of the imaginary part of the result follows the
sign of the imaginary part of the input (negative reals map to `+i*sqrt`). -/
def csqrt (z : ℂ) : ℂ :=
  ⟨Real.sqrt ((Complex.abs z + z.re) / 2),
   if z.im < 0 then -Real.sqrt ((Complex.abs z - z.re) / 2)
   else Real.sqrt ((Complex.abs z - z.re) / 2)⟩

/-- `self.mag2db = lambda x: 20*np.log10(abs(x))` (hfss_ms.py:123). -/
def mag2db (x : ℂ) : ℝ := 20 * Real.logb 10 (Complex.abs x)

/-- `self.db2mag = lambda x: 10**(x/20)` (hfss_ms.py:124). -/
def db2mag (x : ℝ) : ℝ := (10 : ℝ) ^ (x / 20)

/-- `self.gamma2ereff = lambda x,f: -(self.c0/2/np.pi/f*x)**2` (hfss_ms.py:125). -/
def gamma2ereff (x : ℂ) (f : ℝ) : ℂ :=
  -(((c0 / 2 / Real.pi / f : ℝ) : ℂ) * x) ^ 2

/-- `self.ereff2gamma = lambda x,f: 2*np.pi*f/self.c0*np.sqrt(-(x-1j*eps))`
with `eps = np.finfo(float).eps` (hfss_ms.py:126). -/
def ereff2gamma (x : ℂ) (f : ℝ) : ℂ :=
  ((2 * Real.pi * f / c0 : ℝ) : ℂ) * csqrt (-(x - Complex.I * (eps64 : ℂ)))

/-- `self.gamma2dbmm = lambda x: self.mag2db(np.exp(x.real*1e-3))` (hfss_ms.py:127). -/
def gamma2dbmm (x : ℂ) : ℝ := mag2db ((Real.exp (x.re * 1e-3) : ℝ) : ℂ)

/-- Denominator `f0**2 + 2j*f*gamma - f**2` of the Landau-Lifshits
permeability model (example_microstrip.py:24). -/
def LLdenom (f f0 gamma : ℝ) : ℂ :=
  (f0 : ℂ) ^ 2 + 2 * Complex.I * (f : ℂ) * (gamma : ℂ) - (f : ℂ) ^ 2

/-- Landau-Lifshits model for complex relative permeability, pointwise in
frequency (`LLmodel` in example_microstrip.py:17-24):
`murf + (muri - murf)*(f0**2 + 1j*f*gamma)/(f0**2 + 2j*f*gamma - f**2)`. -/
def LLmodel (f : ℝ) (muri murf : ℂ) (f0 gamma : ℝ) : ℂ :=
  murf + (muri - murf) * ((f0 : ℂ) ^ 2 + Complex.I * (f : ℂ) * (gamma : ℂ)) /
    LLdenom f f0 gamma

/-- Elementwise application of `LLmodel` over a frequency array, matching the
numpy broadcasting of `LLmodel` applied to an array `f`. -/
def LLmodelA (f : List ℝ) (muri murf : ℂ) (f0 gamma : ℝ) : List ℂ :=
  f.map (fun x => LLmodel x muri murf f0 gamma)

/-- Values stored in a material-property dictionary: numbers (modelled in ℂ),
strings (the `distribution` tag), or Python `None`. -/
inductive Val where
  | num : ℂ → Val
  | str : String → Val
  | none : Val

/-- A Python dict modelled as an association list in insertion order. -/
abbrev Dict := List (String × Val)

/-- Python dict read: first entry whose key matches. -/
def dictGet : Dict → String → Option Val
  | [], _ => Option.none
  | (k, v) :: t, key => if key == k then some v else dictGet t key

/-- Python `key in material` membership test. -/
def dictMem (d : Dict) (k : String) : Bool := (dictGet d k).isSome

/-- Python `material[key] = v`: replace the value if the key is present,
otherwise append the new key at the end (dict insertion order). -/
def dictSet (d : Dict) (k : String) (v : Val) : Dict :=
  if dictMem d k then d.map (fun p => if p.1 == k then (p.1, v) else p)
  else d ++ [(k, v)]

/-- Python `default_values.get(key, None)`. -/
def dvGet (dv : Dict) (k : String) : Val := (dictGet dv k).getD Val.none

/-- Body of the inner loop of `fill_missing_vals` (hfss_ms.py:132-134):
`if key not in material: material[key] = default_values.get(key, None)`. -/
def fillStep (dv : Dict) (acc : Dict) (key : String) : Dict :=
  if dictMem acc key then acc else dictSet acc key (dvGet dv key)

/-- The per-material inner loop of `fill_missing_vals`: iterate `fillStep`
over `required_keys`. -/
def fillMat (req : List String) (dv : Dict) (m : Dict) : Dict :=
  req.foldl (fillStep dv) m

/-- `HFSSMS.fill_missing_vals` (hfss_ms.py:129-135): fill every material of
the list; the value returned to the caller. -/
def fillMissingVals (req : List String) (dv : Dict) (mats : List Dict) : List Dict :=
  mats.map (fillMat req dv)

/-- A call to `fill_missing_vals` observed together with its side effect.
The first component is the returned list; the second component is the
contents of the caller's `material_properties` argument after the call.
Since the Python function assigns `material[key] = ...` on the caller's own
dict objects and returns the very same list, both components are the filled
list. -/
def fillMissingValsCall (req : List String) (dv : Dict) (mats : List Dict) :
    List Dict × List Dict :=
  (fillMissingVals req dv mats, fillMissingVals req dv mats)

/-- `required_keys` of `HFSSMS.run_simulation` (hfss_ms.py:209). -/
def requiredKeys : List String :=
  ["sigma", "mur", "er", "Rrms", "boundary_loc", "distribution"]

/-- `default_values` of `HFSSMS.run_simulation` (hfss_ms.py:210):
`{'sigma': 58e6, 'mur': 1-0j, 'er': None, 'Rrms': 0, 'boundary_loc': 0,
'distribution': 'norm'}`. -/
def defaultValues : Dict :=
  [("sigma", Val.num ((58e6 : ℝ) : ℂ)),
   ("mur", Val.num (1 - 0 * Complex.I)),
   ("er", Val.none),
   ("Rrms", Val.num 0),
   ("boundary_loc", Val.num 0),
   ("distribution", Val.str "norm")]

/-- A numpy input that is either a scalar or a 1-d array. -/
inductive NumLike where
  | scalar : ℝ → NumLike
  | arr : List ℝ → NumLike

/-- `np.atleast_1d` on scalars and 1-d arrays. -/
def atleast1d : NumLike → List ℝ
  | .scalar x => [x]
  | .arr l => l

/-- numpy elementwise product of two 1-d arrays under broadcasting: equal
lengths multiply elementwise, a length-1 operand broadcasts against the
other, and any other combination raises (modelled as `none`). -/
def broadcastMul (a b : List ℝ) : Option (List ℝ) :=
  if a.length = b.length then some (List.zipWith (fun x y => x * y) a b)
  else if a.length = 1 then some (b.map (fun y => a.headI * y))
  else if b.length = 1 then some (a.map (fun x => x * b.headI))
  else none

/-- `x*np.ones_like(self.f)` for a scalar or 1-d array `x`, where `n` is the
length of `self.f`. -/
def numMulOnes (x : NumLike) (n : ℕ) : Option (List ℝ) :=
  match x with
  | .scalar c => some ((List.replicate n (1 : ℝ)).map (fun y => c * y))
  | .arr l => broadcastMul l (List.replicate n 1)

/-- The per-frequency arrays stored by `HFSSMS.__init__` (hfss_ms.py:87-99). -/
structure InitState where
  f : List ℝ
  er : List ℝ
  etand : List ℝ
  mur : List ℝ
  mutand : List ℝ

/-- Model of `HFSSMS.__init__` array handling (hfss_ms.py:87-99):
`self.f = np.atleast_1d(f)` and `self.er = er*np.ones_like(self.f)` (and
likewise for `etand`, `mur`, `mutand`); `none` models a numpy broadcast
error escaping the constructor. -/
def initModel (f er etand mur mutand : NumLike) : Option InitState :=
  let fl := atleast1d f
  match numMulOnes er fl.length, numMulOnes etand fl.length,
        numMulOnes mur fl.length, numMulOnes mutand fl.length with
  | some e, some t, some m, some mt => some ⟨fl, e, t, m, mt⟩
  | _, _, _, _ => Option.none

/-- Whether a constructor input is a scalar or an array whose length matches
the frequency grid. -/
def okLen (x : NumLike) (n : ℕ) : Prop :=
  match x with
  | .scalar _ => True
  | .arr l => l.length = n

/-- All stored per-frequency arrays have the same length as the stored
frequency grid; `False` when the constructor raised. -/
def lensMatch : Option InitState → Prop
  | some st => st.er.length = st.f.length ∧ st.etand.length = st.f.length ∧
      st.mur.length = st.f.length ∧ st.mutand.length = st.f.length
  | Option.none => False

end

/-! ### Basic facts about the constants and `csqrt` -/

lemma mu0_ep0_pos : 0 < mu0 * ep0 := by norm_num [mu0, ep0]

lemma c0_pos : 0 < c0 := by
  have h := Real.sqrt_pos.mpr mu0_ep0_pos
  rw [c0]
  positivity

lemma one_le_c0 : 1 ≤ c0 := by
  have h2 : 0 < Real.sqrt (mu0 * ep0) := Real.sqrt_pos.mpr mu0_ep0_pos
  have h1 : Real.sqrt (mu0 * ep0) ≤ 1 := by
    rw [show (1 : ℝ) = Real.sqrt 1 by simp]
    exact Real.sqrt_le_sqrt (by norm_num [mu0, ep0])
  rw [c0, le_div_iff₀ h2, one_mul]
  exact h1

lemma eps64_pos : 0 < eps64 := by norm_num [eps64]

lemma eps64_le : eps64 ≤ 1e-15 := by norm_num [eps64]

lemma csqrt_re_nonneg (z : ℂ) : 0 ≤ (csqrt z).re := Real.sqrt_nonneg _

lemma csqrt_im_nonneg (z : ℂ) (h : 0 ≤ z.im) : 0 ≤ (csqrt z).im := by
  show 0 ≤ if z.im < 0 then _ else _
  rw [if_neg (not_lt.mpr h)]
  exact Real.sqrt_nonneg _

lemma abs_sq_eq (z : ℂ) : Complex.abs z ^ 2 = z.re ^ 2 + z.im ^ 2 := by
  rw [Complex.sq_abs, Complex.normSq_apply]
  ring

lemma csqrt_sq (z : ℂ) : csqrt z ^ 2 = z := by
  have habs := Complex.abs_re_le_abs z
  have hle := abs_le.mp habs
  have h1 : 0 ≤ (Complex.abs z + z.re) / 2 := by linarith [hle.1]
  have h2 : 0 ≤ (Complex.abs z - z.re) / 2 := by linarith [hle.2]
  have hprod : Real.sqrt ((Complex.abs z + z.re) / 2) *
      Real.sqrt ((Complex.abs z - z.re) / 2) = |z.im| / 2 := by
    rw [← Real.sqrt_mul h1]
    have hb : (Complex.abs z + z.re) / 2 * ((Complex.abs z - z.re) / 2) =
        (z.im / 2) ^ 2 := by
      have := abs_sq_eq z
      nlinarith [this]
    rw [hb, Real.sqrt_sq_eq_abs, abs_div]
    norm_num
  have hre_d : (csqrt z).re = Real.sqrt ((Complex.abs z + z.re) / 2) := rfl
  have him_d : (csqrt z).im =
      if z.im < 0 then -Real.sqrt ((Complex.abs z - z.re) / 2)
      else Real.sqrt ((Complex.abs z - z.re) / 2) := rfl
  apply Complex.ext
  · rw [pow_two, Complex.mul_re]
    by_cases him : z.im < 0
    · simp only [hre_d, him_d, if_pos him]
      rw [neg_mul_neg, Real.mul_self_sqrt h1, Real.mul_self_sqrt h2]
      linarith
    · simp only [hre_d, him_d, if_neg him]
      rw [Real.mul_self_sqrt h1, Real.mul_self_sqrt h2]
      linarith
  · rw [pow_two, Complex.mul_im]
    by_cases him : z.im < 0
    · rw [abs_of_neg him] at hprod
      simp only [hre_d, him_d, if_pos him, mul_neg, neg_mul]
      ring_nf
      ring_nf at hprod
      linarith
    · rw [abs_of_nonneg (not_lt.mp him)] at hprod
      simp only [hre_d, him_d, if_neg him]
      ring_nf
      ring_nf at hprod
      linarith

lemma abs_le_abs_add_right (a w : ℂ) (h : 0 ≤ a.re * w.re + a.im * w.im) :
    Complex.abs w ≤ Complex.abs (a + w) := by
  have hsq : Complex.abs w ^ 2 ≤ Complex.abs (a + w) ^ 2 := by
    rw [abs_sq_eq, abs_sq_eq, Complex.add_re, Complex.add_im]
    nlinarith [sq_nonneg a.re, sq_nonneg a.im]
  calc Complex.abs w = Real.sqrt (Complex.abs w ^ 2) :=
        (Real.sqrt_sq (Complex.abs.nonneg w)).symm
    _ ≤ Real.sqrt (Complex.abs (a + w) ^ 2) := Real.sqrt_le_sqrt hsq
    _ = Complex.abs (a + w) := Real.sqrt_sq (Complex.abs.nonneg (a + w))

/-! ### C2: the dispersive permeability model -/

/-- C2: for every real frequency array `f`, scalars `muri`, `murf`, and
reals `f0`, `gamma`, the dispersive permeability function returns exactly
`murf + (muri - murf)*(f0^2 + i*f*gamma)/(f0^2 + 2i*f*gamma - f^2)` at each
frequency point. -/
theorem LLmodel_matches_spec (f : List ℝ) (muri murf : ℂ) (f0 gamma : ℝ) :
    LLmodelA f muri murf f0 gamma = f.map (fun x : ℝ =>
      murf + (muri - murf) * ((f0 : ℂ) ^ 2 + Complex.I * (x : ℂ) * (gamma : ℂ)) /
        ((f0 : ℂ) ^ 2 + 2 * Complex.I * (x : ℂ) * (gamma : ℂ) - (x : ℂ) ^ 2)) := by
  simp only [LLmodelA, LLmodel, LLdenom]

/-! ### C8: the model denominator never vanishes -/

/-- C8: for every real `f ≥ 0` and all `f0 > 0` and `gamma > 0`, the
denominator `f0^2 + 2i*f*gamma - f^2` of the dispersive permeability model
is nonzero, so the division in the model never divides by zero. -/
theorem LLdenom_ne_zero (f f0 gamma : ℝ) (_hf : 0 ≤ f) (hf0 : 0 < f0)
    (hg : 0 < gamma) : LLdenom f f0 gamma ≠ 0 := by
  intro h
  have hre : f0 ^ 2 - f ^ 2 = 0 := by
    have := congrArg Complex.re h
    simpa [LLdenom, Complex.add_re, Complex.sub_re, Complex.mul_re,
      Complex.mul_im, pow_two] using this
  have him : 2 * f * gamma = 0 := by
    have := congrArg Complex.im h
    simpa [LLdenom, Complex.add_im, Complex.sub_im, Complex.mul_re,
      Complex.mul_im, pow_two] using this
  have hfz : f = 0 := by
    rcases mul_eq_zero.mp him with h' | h'
    · rcases mul_eq_zero.mp h' with h'' | h''
      · norm_num at h''
      · exact h''
    · exact absurd h' (ne_of_gt hg)
  rw [hfz] at hre
  nlinarith

/-- Witness for C8 at `f = 1`, `f0 = 2`, `gamma = 3`. -/
theorem LLdenom_ne_zero_witness : LLdenom 1 2 3 ≠ 0 :=
  LLdenom_ne_zero 1 2 3 (by norm_num) (by norm_num) (by norm_num)

/-! ### C7: the loss conversion `gamma2dbmm` -/

/-- C7: `gamma2dbmm γ = 20*log10(exp(Re γ * 1e-3))`; it is nonnegative
whenever `Re γ ≥ 0`, and it is zero exactly when `Re γ = 0`. -/
theorem gamma2dbmm_spec (γ : ℂ) :
    gamma2dbmm γ = 20 * Real.logb 10 (Real.exp (γ.re * 1e-3)) ∧
    (0 ≤ γ.re → 0 ≤ gamma2dbmm γ) ∧
    (gamma2dbmm γ = 0 ↔ γ.re = 0) := by
  have hexp : 0 < Real.exp (γ.re * 1e-3) := Real.exp_pos _
  have heq : gamma2dbmm γ = 20 * Real.logb 10 (Real.exp (γ.re * 1e-3)) := by
    rw [gamma2dbmm, mag2db, Complex.abs_ofReal, abs_of_pos hexp]
  have hlog : 0 < Real.log 10 := Real.log_pos (by norm_num)
  have hval : gamma2dbmm γ = 20 * (γ.re * 1e-3 / Real.log 10) := by
    rw [heq, Real.logb, Real.log_exp]
  refine ⟨heq, ?_, ?_⟩
  · intro h
    rw [hval]
    positivity
  · rw [hval]
    constructor
    · intro h
      have h20 : γ.re * 1e-3 / Real.log 10 = 0 := by linarith
      have := (div_eq_zero_iff.mp h20).resolve_right (ne_of_gt hlog)
      nlinarith
    · intro h
      rw [h]
      ring

/-- Witness for C7 at `γ = 3 + 2i`: the loss value is nonnegative. -/
theorem gamma2dbmm_spec_witness : 0 ≤ gamma2dbmm (3 + 2 * Complex.I) :=
  (gamma2dbmm_spec (3 + 2 * Complex.I)).2.1 (by simp)

/-! ### C10: magnitude/decibel round trip -/

/-- C10: for every nonzero complex `x`, `db2mag (mag2db x) = |x|`; in
particular `db2mag (mag2db r) = r` for every real `r > 0`. -/
theorem db2mag_mag2db_roundtrip :
    (∀ x : ℂ, x ≠ 0 → db2mag (mag2db x) = Complex.abs x) ∧
    (∀ r : ℝ, 0 < r → db2mag (mag2db (r : ℂ)) = r) := by
  have habs : ∀ x : ℂ, x ≠ 0 → db2mag (mag2db x) = Complex.abs x := by
    intro x hx
    have hpos : 0 < Complex.abs x := Complex.abs.pos hx
    have h20 : (20 : ℝ) * Real.logb 10 (Complex.abs x) / 20 =
        Real.logb 10 (Complex.abs x) := by ring
    rw [db2mag, mag2db, h20, Real.rpow_logb (by norm_num) (by norm_num) hpos]
  refine ⟨habs, fun r hr => ?_⟩
  rw [habs r (by exact_mod_cast ne_of_gt hr), Complex.abs_ofReal,
    abs_of_pos hr]

/-- Witness for C10 at `x = 2i` and `r = 3`. -/
theorem db2mag_mag2db_roundtrip_witness :
    db2mag (mag2db (2 * Complex.I)) = Complex.abs (2 * Complex.I) ∧
    db2mag (mag2db ((3 : ℝ) : ℂ)) = 3 :=
  ⟨db2mag_mag2db_roundtrip.1 (2 * Complex.I) (by simp),
   db2mag_mag2db_roundtrip.2 3 (by norm_num)⟩

/-! ### C6: `ereff2gamma` always selects the nonnegative-attenuation branch -/

/-- C6: for every complex `ereff` and every `f > 0`, the result of
`ereff2gamma ereff f = (2*pi*f/c0)*sqrt(-ereff + i*eps)` has nonnegative
real part, so the attenuation constant is physically valid. -/
theorem ereff2gamma_re_nonneg (x : ℂ) (f : ℝ) (hf : 0 < f) :
    0 ≤ (ereff2gamma x f).re := by
  have hs : 0 ≤ 2 * Real.pi * f / c0 := by
    have := Real.pi_pos
    have := c0_pos
    positivity
  rw [ereff2gamma, Complex.mul_re, Complex.ofReal_re, Complex.ofReal_im]
  simp only [zero_mul, sub_zero]
  exact mul_nonneg hs (csqrt_re_nonneg _)

/-- Witness for C6 at `ereff = 2`, `f = 1`. -/
theorem ereff2gamma_re_nonneg_witness : 0 ≤ (ereff2gamma 2 1).re :=
  ereff2gamma_re_nonneg 2 1 (by norm_num)

/-! ### Dictionary lemmas for `fill_missing_vals` -/

lemma dictGet_append_of_isSome {d : Dict} {k : String} (l : Dict)
    (h : (dictGet d k).isSome) : dictGet (d ++ l) k = dictGet d k := by
  induction d with
  | nil => simp [dictGet] at h
  | cons p t ih =>
    obtain ⟨a, b⟩ := p
    by_cases hk : k = a
    · simp [dictGet, hk]
    · simp only [dictGet, List.cons_append] at h ⊢
      simp only [beq_iff_eq, if_neg hk] at h ⊢
      exact ih h

lemma dictGet_append_of_none {d : Dict} {k : String} (l : Dict)
    (h : dictGet d k = Option.none) : dictGet (d ++ l) k = dictGet l k := by
  induction d with
  | nil => rfl
  | cons p t ih =>
    obtain ⟨a, b⟩ := p
    by_cases hk : k = a
    · simp [dictGet, hk] at h
    · simp only [dictGet, List.cons_append, beq_iff_eq, if_neg hk] at h ⊢
      exact ih h

lemma dictSet_of_not_mem {d : Dict} {k : String} (v : Val)
    (h : dictMem d k = false) : dictSet d k v = d ++ [(k, v)] := by
  rw [dictSet, h]
  simp

lemma fillStep_get_isSome (dv acc : Dict) (key k : String)
    (h : (dictGet acc k).isSome) :
    dictGet (fillStep dv acc key) k = dictGet acc k := by
  rw [fillStep]
  by_cases hm : dictMem acc key
  · rw [if_pos hm]
  · have hm' : dictMem acc key = false := by simpa using hm
    rw [if_neg hm, dictSet_of_not_mem _ hm']
    exact dictGet_append_of_isSome _ h

lemma foldl_fillStep_isSome (dv : Dict) (req : List String) (acc : Dict)
    (k : String) (h : (dictGet acc k).isSome) :
    dictGet (req.foldl (fillStep dv) acc) k = dictGet acc k := by
  induction req generalizing acc with
  | nil => rfl
  | cons r t ih =>
    rw [List.foldl_cons]
    have h2 := fillStep_get_isSome dv acc r k h
    rw [ih (fillStep dv acc r) (by rw [h2]; exact h), h2]

lemma foldl_fillStep_missing (dv : Dict) (req : List String) (acc : Dict)
    (k : String) (hk : k ∈ req) (h : dictGet acc k = Option.none) :
    dictGet (req.foldl (fillStep dv) acc) k = some (dvGet dv k) := by
  induction req generalizing acc with
  | nil => simp at hk
  | cons r t ih =>
    rw [List.foldl_cons]
    by_cases hkr : k = r
    · subst hkr
      have hm : dictMem acc k = false := by simp [dictMem, h]
      have hstep : fillStep dv acc k = acc ++ [(k, dvGet dv k)] := by
        rw [fillStep, if_neg (by simp [hm]), dictSet_of_not_mem _ hm]
      have hget : dictGet (fillStep dv acc k) k = some (dvGet dv k) := by
        rw [hstep, dictGet_append_of_none _ h]
        simp [dictGet]
      rw [foldl_fillStep_isSome dv t _ k (by rw [hget]; rfl), hget]
    · have hk' : k ∈ t := by
        rcases List.mem_cons.mp hk with h' | h'
        · exact absurd h' hkr
        · exact h'
      have hnone : dictGet (fillStep dv acc r) k = Option.none := by
        rw [fillStep]
        by_cases hm : dictMem acc r
        · rw [if_pos hm]
          exact h
        · have hm' : dictMem acc r = false := by simpa using hm
          rw [if_neg hm, dictSet_of_not_mem _ hm', dictGet_append_of_none _ h]
          simp [dictGet, hkr]
      exact ih _ hk' hnone

lemma fillMat_get_of_isSome (req : List String) (dv m : Dict) (k : String)
    (h : (dictGet m k).isSome) : dictGet (fillMat req dv m) k = dictGet m k :=
  foldl_fillStep_isSome dv req m k h

lemma fillMat_get_of_missing (req : List String) (dv m : Dict) (k : String)
    (hk : k ∈ req) (h : dictGet m k = Option.none) :
    dictGet (fillMat req dv m) k = some (dvGet dv k) :=
  foldl_fillStep_missing dv req m k hk h

lemma fillMat_mem (req : List String) (dv m : Dict) (k : String)
    (hk : k ∈ req) : dictMem (fillMat req dv m) k = true := by
  rw [dictMem]
  cases hg : dictGet m k with
  | none => rw [fillMat_get_of_missing req dv m k hk hg]; rfl
  | some v =>
    rw [fillMat_get_of_isSome req dv m k (by rw [hg]; rfl), hg]
    rfl

lemma fillMat_of_all_mem (req : List String) (dv m : Dict)
    (h : ∀ k ∈ req, dictMem m k = true) : fillMat req dv m = m := by
  induction req with
  | nil => rfl
  | cons r t ih =>
    show List.foldl (fillStep dv) m (r :: t) = m
    rw [List.foldl_cons,
      show fillStep dv m r = m from by rw [fillStep, if_pos (h r (by simp))]]
    exact ih (fun k hk => h k (List.mem_cons_of_mem _ hk))

lemma fillMat_idem (req : List String) (dv m : Dict) :
    fillMat req dv (fillMat req dv m) = fillMat req dv m :=
  fillMat_of_all_mem _ _ _ (fun k hk => fillMat_mem req dv m k hk)

/-! ### C4: default filling is idempotent -/

/-- C4: for every required-key list, default table, and list of layer
dictionaries, `fill_missing_vals` is idempotent:
`normalize (normalize x) = normalize x`. -/
theorem fill_missing_vals_idempotent (req : List String) (dv : Dict)
    (mats : List Dict) :
    fillMissingVals req dv (fillMissingVals req dv mats) =
      fillMissingVals req dv mats := by
  simp only [fillMissingVals, List.map_map]
  exact List.map_congr_left (fun m _ => fillMat_idem req dv m)

/-! ### C3: default filling and mutation of the caller's argument -/

/-- C3 counterexample: calling `fill_missing_vals` on a list holding one
empty layer dictionary leaves the caller's argument changed — the layer
dict has been filled in place, so it no longer equals the empty dict that
was passed in. This refutes the claim that the operation does not mutate
caller-owned layer records. -/
theorem fill_missing_vals_mutates :
    (fillMissingValsCall requiredKeys defaultValues [[]]).2 ≠ [([] : Dict)] := by
  intro h
  simp only [fillMissingValsCall, fillMissingVals, List.map_cons, List.map_nil,
    List.cons.injEq, and_true] at h
  have h2 := fillMat_mem requiredKeys defaultValues [] "sigma"
    (by simp [requiredKeys])
  rw [h] at h2
  simp [dictMem, dictGet] at h2

/-- C3 (amended): `fill_missing_vals` updates the caller's layer dicts in
place — after the call the argument holds exactly the returned filled
dicts — and a layer already containing every required key is left
unchanged. -/
theorem fill_missing_vals_inplace (req : List String) (dv : Dict)
    (mats : List Dict) :
    (fillMissingValsCall req dv mats).2 = (fillMissingValsCall req dv mats).1 ∧
    ∀ m ∈ mats, (∀ k ∈ req, dictMem m k = true) → fillMat req dv m = m := by
  refine ⟨rfl, ?_⟩
  intro m _ h
  exact fillMat_of_all_mem req dv m h

/-- Witness for C3 (amended): a layer that already has all required keys is
returned unchanged. -/
theorem fill_missing_vals_inplace_witness :
    fillMat requiredKeys defaultValues defaultValues = defaultValues :=
  (fill_missing_vals_inplace requiredKeys defaultValues [defaultValues]).2
    defaultValues (by simp) (by decide)

/-! ### C5: the default table and untouched caller values -/

/-- C5: with the required keys and default table of `run_simulation`, a
layer missing a required key receives the table default, a key already
present keeps its caller-supplied value, and the table defaults are
`sigma = 58e6`, `mur = 1`, `Rrms = 0`, `boundary_loc = 0`,
`distribution = "norm"`. -/
theorem fill_missing_vals_defaults (m : Dict) (k : String) :
    (k ∈ requiredKeys → dictGet m k = Option.none →
      dictGet (fillMat requiredKeys defaultValues m) k =
        some (dvGet defaultValues k)) ∧
    ((dictGet m k).isSome →
      dictGet (fillMat requiredKeys defaultValues m) k = dictGet m k) ∧
    (dvGet defaultValues "sigma" = Val.num ((58e6 : ℝ) : ℂ) ∧
     dvGet defaultValues "mur" = Val.num 1 ∧
     dvGet defaultValues "Rrms" = Val.num 0 ∧
     dvGet defaultValues "boundary_loc" = Val.num 0 ∧
     dvGet defaultValues "distribution" = Val.str "norm") := by
  refine ⟨fun hk hn => fillMat_get_of_missing _ _ _ _ hk hn,
    fun hs => fillMat_get_of_isSome _ _ _ _ hs, rfl, ?_, rfl, rfl, rfl⟩
  show Val.num (1 - 0 * Complex.I) = Val.num 1
  norm_num

/-- Witness for C5 on a layer supplying only `Rrms`: the missing `sigma`
gets the default and the supplied `Rrms` is untouched. -/
theorem fill_missing_vals_defaults_witness :
    dictGet (fillMat requiredKeys defaultValues [("Rrms", Val.num 2)]) "sigma" =
      some (dvGet defaultValues "sigma") ∧
    dictGet (fillMat requiredKeys defaultValues [("Rrms", Val.num 2)]) "Rrms" =
      dictGet [("Rrms", Val.num 2)] "Rrms" :=
  ⟨(fill_missing_vals_defaults [("Rrms", Val.num 2)] "sigma").1
      (by simp [requiredKeys]) rfl,
   (fill_missing_vals_defaults [("Rrms", Val.num 2)] "Rrms").2.1 rfl⟩

/-! ### C1: the gamma / effective-permittivity round trip -/

lemma csqrt_perturb (w : ℂ) (ε : ℝ) (hε : 0 < ε) (hre : 0 ≤ w.re)
    (him : 0 ≤ w.im) (hw : w ≠ 0) :
    Complex.abs (csqrt (w ^ 2 + Complex.I * (ε : ℂ)) - w) ≤ ε / Complex.abs w := by
  set X := w ^ 2 + Complex.I * (ε : ℂ) with hX
  have hXim : 0 ≤ X.im := by
    have h1 : X.im = w.re * w.im + w.im * w.re + ε := by
      rw [hX, Complex.add_im, pow_two, Complex.mul_im, Complex.mul_im]
      simp
    rw [h1]
    nlinarith [mul_nonneg hre him]
  have h2 : 0 ≤ (csqrt X).re := csqrt_re_nonneg X
  have h3 : 0 ≤ (csqrt X).im := csqrt_im_nonneg X hXim
  have hdot : 0 ≤ (csqrt X).re * w.re + (csqrt X).im * w.im :=
    add_nonneg (mul_nonneg h2 hre) (mul_nonneg h3 him)
  have hlow : Complex.abs w ≤ Complex.abs (csqrt X + w) :=
    abs_le_abs_add_right (csqrt X) w hdot
  have hwpos : 0 < Complex.abs w := Complex.abs.pos hw
  have hsum : 0 < Complex.abs (csqrt X + w) := lt_of_lt_of_le hwpos hlow
  have hmul : (csqrt X - w) * (csqrt X + w) = Complex.I * (ε : ℂ) := by
    have h := csqrt_sq X
    calc (csqrt X - w) * (csqrt X + w) = csqrt X ^ 2 - w ^ 2 := by ring
      _ = Complex.I * (ε : ℂ) := by rw [h, hX]; ring
  have habs : Complex.abs (csqrt X - w) * Complex.abs (csqrt X + w) = ε := by
    rw [← map_mul, hmul, map_mul, Complex.abs_I, Complex.abs_ofReal, one_mul,
      abs_of_pos hε]
  have hd : Complex.abs (csqrt X - w) = ε / Complex.abs (csqrt X + w) := by
    rw [eq_div_iff (ne_of_gt hsum)]
    exact habs
  rw [hd]
  gcongr

/-- C1 counterexample: at `γ = -i` (which has `Re γ = 0 ≥ 0`) and `f = 1`,
the round trip `ereff2gamma (gamma2ereff γ f) f` lands on the opposite
branch (`≈ +i`), so it does not reproduce `γ` within `1e-9` relative
tolerance. -/
theorem roundtrip_claim_counterexample :
    0 ≤ (-Complex.I).re ∧ (0 : ℝ) < 1 ∧
    ¬ Complex.abs (ereff2gamma (gamma2ereff (-Complex.I) 1) 1 - -Complex.I) ≤
        1e-9 * Complex.abs (-Complex.I) := by
  refine ⟨by simp, by norm_num, ?_⟩
  intro hcon
  have hg : gamma2ereff (-Complex.I) 1 =
      (((c0 / 2 / Real.pi / 1) ^ 2 : ℝ) : ℂ) := by
    simp only [gamma2ereff]
    rw [Complex.ofReal_pow]
    linear_combination (-(((c0 / 2 / Real.pi / 1 : ℝ) : ℂ)) ^ 2) * Complex.I_sq
  set X := -(gamma2ereff (-Complex.I) 1 - Complex.I * (eps64 : ℂ)) with hX_def
  have hXim : 0 ≤ X.im := by
    rw [hX_def, hg, Complex.neg_im, Complex.sub_im, Complex.ofReal_im]
    have hie : (Complex.I * ((eps64 : ℝ) : ℂ)).im = eps64 := by
      rw [Complex.mul_im, Complex.I_re, Complex.I_im, Complex.ofReal_re,
        Complex.ofReal_im]
      ring
    rw [hie]
    simpa using eps64_pos.le
  have him_rt : 0 ≤ (ereff2gamma (gamma2ereff (-Complex.I) 1) 1).im := by
    have hc := c0_pos
    have hπ := Real.pi_pos
    have hunf : ereff2gamma (gamma2ereff (-Complex.I) 1) 1 =
        ((2 * Real.pi * 1 / c0 : ℝ) : ℂ) * csqrt X := by
      simp only [ereff2gamma]
    rw [hunf, Complex.mul_im, Complex.ofReal_re, Complex.ofReal_im]
    simp only [zero_mul, add_zero]
    exact mul_nonneg (by positivity) (csqrt_im_nonneg X hXim)
  have h3 : (ereff2gamma (gamma2ereff (-Complex.I) 1) 1 - -Complex.I).im =
      (ereff2gamma (gamma2ereff (-Complex.I) 1) 1).im + 1 := by
    simp [Complex.sub_im, Complex.neg_im, Complex.I_im]
  have h2 := Complex.abs_im_le_abs
    (ereff2gamma (gamma2ereff (-Complex.I) 1) 1 - -Complex.I)
  rw [h3] at h2
  have h1 : (1 : ℝ) ≤
      Complex.abs (ereff2gamma (gamma2ereff (-Complex.I) 1) 1 - -Complex.I) := by
    have h4 := le_abs_self ((ereff2gamma (gamma2ereff (-Complex.I) 1) 1).im + 1)
    linarith
  have habsI : Complex.abs (-Complex.I) = 1 := by simp
  rw [habsI, mul_one] at hcon
  linarith

/-- C1 (amended): for every `γ` in the closed first quadrant
(`Re γ ≥ 0`, `Im γ ≥ 0`) and `f > 0` with `c0*|γ| ≥ 1e-3 * 2*pi*f`
(i.e. the effective index is at least `1e-3`, always true for physical
propagation constants), the round trip reproduces `γ` to within `1e-9`
relative tolerance. -/
theorem roundtrip_amended (γ : ℂ) (f : ℝ) (hf : 0 < f) (hre : 0 ≤ γ.re)
    (him : 0 ≤ γ.im)
    (hbig : 1e-3 * (2 * Real.pi * f) ≤ c0 * Complex.abs γ) :
    Complex.abs (ereff2gamma (gamma2ereff γ f) f - γ) ≤
      1e-9 * Complex.abs γ := by
  have hπ : 0 < Real.pi := Real.pi_pos
  have hc : 0 < c0 := c0_pos
  have hγ : 0 < Complex.abs γ := by
    by_contra hcontra
    push_neg at hcontra
    have hA : Complex.abs γ = 0 := le_antisymm hcontra (Complex.abs.nonneg γ)
    rw [hA, mul_zero] at hbig
    nlinarith [mul_pos (mul_pos (by norm_num : (0:ℝ) < 2) hπ) hf]
  have hγ0 : γ ≠ 0 := by
    intro h0
    rw [h0] at hγ
    simp at hγ
  set k := c0 / 2 / Real.pi / f with hk_def
  set s := 2 * Real.pi * f / c0 with hs_def
  have hk : 0 < k := by rw [hk_def]; positivity
  have hs : 0 < s := by rw [hs_def]; positivity
  have hks : k * s = 1 := by rw [hk_def, hs_def]; field_simp
  set w := (k : ℂ) * γ with hw_def
  have hw0 : w ≠ 0 :=
    mul_ne_zero (Complex.ofReal_ne_zero.mpr (ne_of_gt hk)) hγ0
  have hwre : 0 ≤ w.re := by
    rw [hw_def, Complex.mul_re, Complex.ofReal_re, Complex.ofReal_im]
    simp only [zero_mul, sub_zero]
    exact mul_nonneg hk.le hre
  have hwim : 0 ≤ w.im := by
    rw [hw_def, Complex.mul_im, Complex.ofReal_re, Complex.ofReal_im]
    simp only [zero_mul, add_zero]
    exact mul_nonneg hk.le him
  have hwabs : Complex.abs w = k * Complex.abs γ := by
    rw [hw_def, map_mul, Complex.abs_ofReal, abs_of_pos hk]
  have hargeq : -(gamma2ereff γ f - Complex.I * (eps64 : ℂ)) =
      w ^ 2 + Complex.I * (eps64 : ℂ) := by
    simp only [gamma2ereff]
    rw [← hk_def, ← hw_def]
    ring
  have hrt : ereff2gamma (gamma2ereff γ f) f =
      ((s : ℝ) : ℂ) * csqrt (w ^ 2 + Complex.I * (eps64 : ℂ)) := by
    simp only [ereff2gamma]
    rw [hargeq, ← hs_def]
  have hdiff : ereff2gamma (gamma2ereff γ f) f - γ =
      ((s : ℝ) : ℂ) * (csqrt (w ^ 2 + Complex.I * (eps64 : ℂ)) - w) := by
    rw [hrt, mul_sub]
    congr 1
    rw [hw_def, ← mul_assoc, ← Complex.ofReal_mul,
      show s * k = 1 from by rw [mul_comm]; exact hks]
    simp
  rw [hdiff, map_mul, Complex.abs_ofReal, abs_of_pos hs]
  have hkey := csqrt_perturb w eps64 eps64_pos hwre hwim hw0
  have hstep : s * Complex.abs (csqrt (w ^ 2 + Complex.I * (eps64 : ℂ)) - w) ≤
      s * (eps64 / Complex.abs w) :=
    mul_le_mul_of_nonneg_left hkey hs.le
  refine le_trans hstep ?_
  rw [hwabs]
  have hsA : 1e-3 * s ≤ Complex.abs γ := by
    have h3 : c0 * (1e-3 * s) = 1e-3 * (2 * Real.pi * f) := by
      rw [hs_def]
      field_simp
    have h4 : c0 * (1e-3 * s) ≤ c0 * Complex.abs γ := by
      rw [h3]
      exact hbig
    exact le_of_mul_le_mul_left h4 hc
  have hkA : 0 < k * Complex.abs γ := mul_pos hk hγ
  rw [← mul_div_assoc, div_le_iff₀ hkA]
  have hk_eq : k = 1 / s := by
    field_simp
    linarith [hks]
  rw [hk_eq]
  have hfin : 1e-9 * Complex.abs γ * (1 / s * Complex.abs γ) =
      1e-9 * (Complex.abs γ * Complex.abs γ) / s := by
    ring
  rw [hfin, le_div_iff₀ hs]
  nlinarith [mul_nonneg (sub_nonneg.mpr hsA)
      (by positivity : (0:ℝ) ≤ Complex.abs γ + 1e-3 * s),
    mul_le_mul_of_nonneg_left eps64_le (mul_nonneg hs.le hs.le)]

/-- Witness for C1 (amended) at `γ = i`, `f = 1`. -/
theorem roundtrip_amended_witness :
    Complex.abs (ereff2gamma (gamma2ereff Complex.I 1) 1 - Complex.I) ≤
      1e-9 * Complex.abs Complex.I :=
  roundtrip_amended Complex.I 1 (by norm_num) (by norm_num [Complex.I_re])
    (by norm_num [Complex.I_im])
    (by
      have h1 := one_le_c0
      have h2 : Real.pi < 3.15 := Real.pi_lt_d2
      rw [Complex.abs_I, mul_one]
      linarith)

/-! ### C9: per-frequency array lengths after construction -/

lemma numMulOnes_okLen (x : NumLike) (n : ℕ) (h : okLen x n) :
    ∃ l, numMulOnes x n = some l ∧ l.length = n := by
  cases x with
  | scalar c => exact ⟨_, rfl, by simp⟩
  | arr l =>
    have hl : l.length = n := h
    refine ⟨List.zipWith (fun x y => x * y) l (List.replicate n 1), ?_, ?_⟩
    · simp [numMulOnes, broadcastMul, hl]
    · simp [hl]

/-- C9 counterexample: a scalar frequency together with a length-3 `er`
array is accepted by the constructor (numpy broadcasting succeeds), yet the
stored `er` array has length 3 while the stored frequency grid has length
1. This refutes the claim for arbitrary accepted inputs. -/
theorem init_lengths_counterexample :
    (initModel (NumLike.scalar 5) (NumLike.arr [1, 2, 3]) (NumLike.scalar 0)
      (NumLike.scalar 1) (NumLike.scalar 0)).isSome = true ∧
    ¬ lensMatch (initModel (NumLike.scalar 5) (NumLike.arr [1, 2, 3])
      (NumLike.scalar 0) (NumLike.scalar 1) (NumLike.scalar 0)) := by
  constructor
  · rfl
  · intro h
    simp [initModel, numMulOnes, broadcastMul, atleast1d, lensMatch] at h

/-- C9 (amended): whenever each material parameter is a scalar or an array
whose length equals the frequency grid's, the constructor succeeds and all
stored per-frequency arrays have the same length as the stored grid. -/
theorem init_lengths_amended (f er etand mur mutand : NumLike)
    (h1 : okLen er (atleast1d f).length) (h2 : okLen etand (atleast1d f).length)
    (h3 : okLen mur (atleast1d f).length)
    (h4 : okLen mutand (atleast1d f).length) :
    lensMatch (initModel f er etand mur mutand) := by
  obtain ⟨e, he, hel⟩ := numMulOnes_okLen _ _ h1
  obtain ⟨t, ht, htl⟩ := numMulOnes_okLen _ _ h2
  obtain ⟨m, hm, hml⟩ := numMulOnes_okLen _ _ h3
  obtain ⟨mt, hmt, hmtl⟩ := numMulOnes_okLen _ _ h4
  simp only [initModel, he, ht, hm, hmt]
  exact ⟨hel, htl, hml, hmtl⟩

/-- Witness for C9 (amended) with a two-point grid, a matching `er` array
and scalar remaining parameters. -/
theorem init_lengths_amended_witness :
    lensMatch (initModel (NumLike.arr [1, 2]) (NumLike.arr [3, 4])
      (NumLike.scalar 0) (NumLike.scalar 1) (NumLike.scalar 0)) :=
  init_lengths_amended (NumLike.arr [1, 2]) (NumLike.arr [3, 4])
    (NumLike.scalar 0) (NumLike.scalar 1) (NumLike.scalar 0)
    rfl trivial trivial trivial

end HfssMs
